import Mathlib

/-!
Verification development for the libgdf Parquet page-decoding core.

Shallow embedding of:
  * the hybrid RLE/bit-packed decoder `gdf::arrow::internal::RleDecoder`
    (src/unnamed/part_002),
  * the definition-level-to-bitmap builders `_DefinitionLevelsToBitmap`
    (src/src/parquet/column_reader.cu) and `_GenerateNullBitmap`
    (src/src/parquet/column_reader.cpp),
  * the scatter compaction `compact_to_sparse_for_nulls`
    (src/src/parquet/column_reader.cu),
  * the `ColumnReader` page/batch state machine (`HasNext`, `ReadNewPage`,
    `ReadBatch`, `ToGdfColumn`),
  * the column-name filter of `read_parquet` (src/unnamed/part_003).

Machine integers are modelled as `Nat`/`Int`; byte buffers as `List Nat`
(each entry one byte); C++ exceptions as `Except String`; `int16_t`
definition levels as `Int`.
-/

namespace GdfParquet

/-- Modelled from the spec: the `BitReader` leaf component (its source,
`bit-stream.h`, is not under src/).  Per the spec it "reads
variable-length-quantity integers and fixed-bit-width packed integers from a
byte buffer; advances a bit cursor".  `buffer` is the byte buffer (one `Nat`
per byte), `bitPos` the absolute bit cursor from the start of the buffer. -/
structure BitReader where
  buffer : List Nat
  bitPos : Nat
deriving DecidableEq, Repr

namespace BitReader

/-- Modelled from the spec: rearm the bit reader over a new byte range with
the cursor at the start. -/
def Reset (_br : BitReader) (buffer : List Nat) : BitReader :=
  { buffer := buffer, bitPos := 0 }

/-- Bit `i` of the packed little-endian bit stream: bit `i % 8` of byte
`i / 8`. -/
def streamBit (buf : List Nat) (i : Nat) : Nat :=
  ((buf.getD (i / 8) 0) >>> (i % 8)) % 2

/-- Read `width` bits starting at absolute bit position `pos`, LSB first
(Parquet's fixed-bit-width packing). -/
def readBits (buf : List Nat) (pos width : Nat) : Nat :=
  (List.range width).foldl (fun acc j => acc + streamBit buf (pos + j) * 2 ^ j) 0

/-- Little-endian byte list to natural number. -/
def leBytesToNat (bs : List Nat) : Nat :=
  bs.foldr (fun b acc => b + 256 * acc) 0

/-- Modelled from the spec: read a batch of `n` fixed-`width`-bit packed
integers, advancing the bit cursor; at most the number of whole values still
available in the buffer is produced. -/
def GetBatch (br : BitReader) (width n : Nat) : List Nat × BitReader :=
  let avail := if width = 0 then n else (8 * br.buffer.length - br.bitPos) / width
  let m := min n avail
  ((List.range m).map fun k => readBits br.buffer (br.bitPos + k * width) width,
   { br with bitPos := br.bitPos + m * width })

/-- Modelled from the spec: read `numBytes` bytes little-endian after
advancing the cursor to the next byte boundary; fails (without moving)
when the buffer has too few bytes left. -/
def GetAligned (br : BitReader) (numBytes : Nat) : Option (Nat × BitReader) :=
  let bytesRead := (br.bitPos + 7) / 8
  if bytesRead + numBytes ≤ br.buffer.length then
    some (leBytesToNat ((br.buffer.drop bytesRead).take numBytes),
          { br with bitPos := 8 * (bytesRead + numBytes) })
  else none

/-- Modelled from the spec: VLQ loop, one aligned byte per step, 7 payload
bits per byte LSB-group first, continuation bit `0x80`; at most 5 bytes
(32-bit VLQ). -/
def GetVlqIntGo : Nat → BitReader → Nat → Nat → Option (Nat × BitReader)
  | 0, _, _, _ => none
  | fuel + 1, br, shift, acc =>
    match br.GetAligned 1 with
    | none => none
    | some (byte, br') =>
      let acc' := acc + byte % 128 * 2 ^ shift
      if byte < 128 then some (acc', br') else GetVlqIntGo fuel br' (shift + 7) acc'

/-- Modelled from the spec: read one VLQ-encoded integer; `none` when the
stream is exhausted. -/
def GetVlqInt (br : BitReader) : Option (Nat × BitReader) :=
  GetVlqIntGo 5 br 0 0

end BitReader

/-- State of `gdf::arrow::internal::RleDecoder` (src/unnamed/part_002,
lines 37-101): a bit reader plus `bit_width_`, `current_value_`,
`repeat_count_` and `literal_count_`. -/
structure RleDecoder where
  bitReader : BitReader
  bitWidth : Nat
  currentValue : Nat
  repeatCount : Nat
  literalCount : Nat
deriving DecidableEq, Repr

namespace RleDecoder

/-- The main constructor `RleDecoder(buffer, buffer_len, bit_width)`
(part_002 lines 41-50): counters and current value start at zero. -/
def init (buffer : List Nat) (bitWidth : Nat) : RleDecoder :=
  { bitReader := { buffer := buffer, bitPos := 0 }
    bitWidth := bitWidth
    currentValue := 0
    repeatCount := 0
    literalCount := 0 }

/-- `RleDecoder::Reset` (part_002 lines 57-66): rearm the bit reader and
zero every run counter and the current value. -/
def Reset (d : RleDecoder) (buffer : List Nat) (bitWidth : Nat) : RleDecoder :=
  { bitReader := d.bitReader.Reset buffer
    bitWidth := bitWidth
    currentValue := 0
    repeatCount := 0
    literalCount := 0 }

/-- `RleDecoder::NextCounts` (part_002 lines 289-311): read the VLQ run
header; low bit 1 enters a literal run of `(header >> 1) * 8` values, low
bit 0 enters a repeated run of `header >> 1` copies of a value read as
`ceil(bit_width / 8)` aligned bytes.  A failed aligned read leaves
`current_value_` unchanged (the source only `DCHECK`s the result). -/
def NextCounts (d : RleDecoder) : Option RleDecoder :=
  match d.bitReader.GetVlqInt with
  | none => none
  | some (indicator, br) =>
    if indicator % 2 = 1 then
      some { d with bitReader := br, literalCount := (indicator >>> 1) * 8 }
    else
      match br.GetAligned ((d.bitWidth + 7) / 8) with
      | some (v, br2) =>
        some { d with bitReader := br2, repeatCount := indicator >>> 1, currentValue := v }
      | none => some { d with bitReader := br, repeatCount := indicator >>> 1 }

/-- Loop body of `RleDecoder::GetBatch` (part_002 lines 109-136), with
explicit fuel.  Arguments: fuel, state, values still requested, values
written so far.  Returns the written values, the unfulfilled request count
and the final state.  The literal branch advances the request by the full
`literal_batch` even if the bit reader produced fewer values (the source
only `DCHECK`s `actual_read == literal_batch`). -/
def GetBatchGo : Nat → RleDecoder → Nat → List Nat → List Nat × Nat × RleDecoder
  | 0, d, remaining, acc => (acc, remaining, d)
  | fuel + 1, d, remaining, acc =>
    if remaining = 0 then (acc, 0, d)
    else if 0 < d.repeatCount then
      let repeatBatch := min remaining d.repeatCount
      GetBatchGo fuel { d with repeatCount := d.repeatCount - repeatBatch }
        (remaining - repeatBatch) (acc ++ List.replicate repeatBatch d.currentValue)
    else if 0 < d.literalCount then
      let literalBatch := min remaining d.literalCount
      let step := d.bitReader.GetBatch d.bitWidth literalBatch
      GetBatchGo fuel { d with bitReader := step.2, literalCount := d.literalCount - literalBatch }
        (remaining - literalBatch) (acc ++ step.1)
    else
      match d.NextCounts with
      | none => (acc, remaining, d)
      | some d' => GetBatchGo fuel d' remaining acc

/-- `RleDecoder::GetBatch(values, batch_size)`: returns the written values,
the number of values read (the C++ return value) and the final decoder
state.  The fuel `batch_size + buffer length + 1` dominates the loop: every
iteration either produces a value or consumes at least one buffer byte for
a run header. -/
def GetBatch (d : RleDecoder) (batchSize : Nat) : List Nat × Nat × RleDecoder :=
  let r := GetBatchGo (batchSize + d.bitReader.buffer.length + 1) d batchSize []
  (r.1, batchSize - r.2.1, r.2.2)

/-- The invariant claimed of the run counters: at most one of
`repeat_count_` and `literal_count_` is positive. -/
def CounterInv (d : RleDecoder) : Prop :=
  d.repeatCount = 0 ∨ d.literalCount = 0

instance (d : RleDecoder) : Decidable d.CounterInv := by
  unfold CounterInv; infer_instance

end RleDecoder

/-- Number of entries of `levels` equal to `m` (the "present values" count
computed by `ReadBatch` and by the `is_equal` predicate of
`compact_to_sparse_for_nulls`). -/
def countEq (levels : List Int) (m : Int) : Nat :=
  levels.countP fun l => l == m

/-- Number of entries of `levels` strictly below `m` (the null count of the
bitmap builders). -/
def countLt (levels : List Int) (m : Int) : Nat :=
  levels.countP fun l => decide (l < m)

/-- `_DefinitionLevelsToBitmap` of src/src/parquet/column_reader.cu lines
749-802 (the variant without a repetition-level parameter, used by
`ToGdfColumn`): one bit per level, set iff the level equals
`max_definition_level`; a level below the maximum clears the bit and
increments the null count; a level above it throws
"definition level exceeds maximum".  `bits`/`nulls` are the
`BitmapWriter` output written so far and the running null count. -/
def DefinitionLevelsToBitmap :
    List Int → Int → List Bool → Nat → Except String (List Bool × Nat)
  | [], _, bits, nulls => .ok (bits, nulls)
  | l :: rest, maxd, bits, nulls =>
    if l = maxd then DefinitionLevelsToBitmap rest maxd (bits ++ [true]) nulls
    else if l < maxd then DefinitionLevelsToBitmap rest maxd (bits ++ [false]) (nulls + 1)
    else .error "definition level exceeds maximum"

/-- `_DefinitionLevelsToBitmap` of src/src/parquet/column_reader.cu lines
246-295 (the repetition-aware variant used by `ReadBatchSpaced`).  When
`max_repetition_level > 0`, a level equal to `max_definition_level - 1` is
an explicit null and any other non-max level is skipped without advancing
the bitmap writer; only when `max_repetition_level = 0` does a level above
the maximum throw. -/
def DefinitionLevelsToBitmapSpaced :
    List Int → Int → Int → List Bool → Nat → Except String (List Bool × Nat)
  | [], _, _, bits, nulls => .ok (bits, nulls)
  | l :: rest, maxd, maxr, bits, nulls =>
    if l = maxd then DefinitionLevelsToBitmapSpaced rest maxd maxr (bits ++ [true]) nulls
    else if 0 < maxr then
      if l = maxd - 1 then
        DefinitionLevelsToBitmapSpaced rest maxd maxr (bits ++ [false]) (nulls + 1)
      else DefinitionLevelsToBitmapSpaced rest maxd maxr bits nulls
    else if l < maxd then
      DefinitionLevelsToBitmapSpaced rest maxd maxr (bits ++ [false]) (nulls + 1)
    else .error "definition level exceeds maximum"

/-- `_GenerateNullBitmap` of src/src/parquet/column_reader.cpp lines
280-297: turns the bit on when the level equals `file_level`, otherwise
counts a null (the `DCHECK_LT(levels[i], file_level)` is debug-only, so no
level ever raises an error here).  `true` records a bit turned on; `false`
records a position left untouched in the caller's bitmap. -/
def GenerateNullBitmap : List Int → Int → List Bool → Nat → List Bool × Nat
  | [], _, bits, nulls => (bits, nulls)
  | l :: rest, fileLevel, bits, nulls =>
    if l = fileLevel then GenerateNullBitmap rest fileLevel (bits ++ [true]) nulls
    else GenerateNullBitmap rest fileLevel (bits ++ [false]) (nulls + 1)

/-- The `thrust::copy_if(counting(0), counting(batch_size), definition_levels,
work_space, is_equal(max_definition_level))` step of
`compact_to_sparse_for_nulls` (column_reader.cu lines 712-719): the indices,
in order, whose definition level equals the maximum.  `start` is the next
counting-iterator value. -/
def copyIfIndices : Nat → List Int → Int → List Nat
  | _, [], _ => []
  | i, l :: rest, maxd =>
    if l = maxd then i :: copyIfIndices (i + 1) rest maxd
    else copyIfIndices (i + 1) rest maxd

/-- `thrust::scatter(data_in, data_in + n, map, data_out)`: write the k-th
input value at output position `map[k]`, for `k` below the shorter length. -/
def thrustScatter : List Int → List Nat → List Int → List Int
  | [], _, out => out
  | _, [], out => out
  | v :: vs, i :: is, out => thrustScatter vs is (out.set i v)

/-- `compact_to_sparse_for_nulls(data_in, data_out, definition_levels,
max_definition_level, batch_size, work_space)` (column_reader.cu lines
708-721): build the index map of positions whose level is the maximum, then
scatter the dense input values to those positions of `data_out`. -/
def compact_to_sparse_for_nulls
    (dataIn : List Int) (definitionLevels : List Int) (maxDefinitionLevel : Int)
    (dataOut : List Int) : List Int :=
  thrustScatter dataIn (copyIfIndices 0 definitionLevels maxDefinitionLevel) dataOut

/-- Bit-pack a bitmap (`BitmapWriter` layout: bit `i % 8` of byte `i / 8`). -/
def packBits (bits : List Bool) : List Nat :=
  (List.range ((bits.length + 7) / 8)).map fun b =>
    (List.range 8).foldl (fun acc j => if bits.getD (8 * b + j) false then acc + 2 ^ j else acc) 0

/-- Page kinds seen by `ReadNewPage` (`DICTIONARY_PAGE`, `DATA_PAGE`,
anything else is skipped). -/
inductive PageKind
  | dictionary
  | data
  | other
deriving DecidableEq, Repr

/-- A page as the `ColumnReader` sees it through the external page source.
The level and value payloads are abstracted as the streams the level
decoders and the page's value decoder produce (footer parsing, compression
and byte-level slicing are external collaborators). -/
structure Page where
  kind : PageKind
  numValues : Nat
  defLevels : List Int
  repLevels : List Int
  values : List Int
deriving DecidableEq, Repr

/-- `ColumnReader` state: the remaining pages of the page source, the
`num_buffered_values_`/`num_decoded_values_` counters, the undecoded
remainder of the current page's level and value streams, and the column
descriptor's two maxima. -/
structure CRState where
  pages : List Page
  numBuffered : Nat
  numDecoded : Nat
  curDef : List Int
  curRep : List Int
  curVals : List Int
  maxDef : Int
  maxRep : Int
deriving DecidableEq, Repr

/-- The page-pulling loop of `ColumnReader::ReadNewPage`
(column_reader.cpp lines 100-193, column_reader.cu lines 112-222): pull
pages until a data page appears (dictionary pages reconfigure the
dictionary decoder and the loop continues; other pages are skipped);
`none` when the pager is exhausted. -/
def ReadNewPage : List Page → Option (Page × List Page)
  | [] => none
  | p :: rest => if p.kind = PageKind.data then some (p, rest) else ReadNewPage rest

/-- Install a freshly fetched data page: `num_buffered_values_ =
page->num_values()`, `num_decoded_values_ = 0`, level decoders and value
decoder rebound to the page's streams. -/
def loadPage (s : CRState) (p : Page) (rest : List Page) : CRState :=
  { s with
    pages := rest
    numBuffered := p.numValues
    numDecoded := 0
    curDef := p.defLevels
    curRep := p.repLevels
    curVals := p.values }

/-- `ColumnReader::HasNext` (column_reader.cpp lines 90-98, column_reader.cu
lines 99-110): when the current page is absent or fully decoded, fetch a new
page; report `false` if the pager is exhausted or the fetched page has
`num_values == 0`.  Returns the flag together with the mutated reader. -/
def HasNext (s : CRState) : Bool × CRState :=
  if s.numBuffered = 0 ∨ s.numDecoded = s.numBuffered then
    match ReadNewPage s.pages with
    | none => (false, { s with pages := [] })
    | some (p, rest) =>
      let s' := loadPage s p rest
      if s'.numBuffered = 0 then (false, s') else (true, s')
  else (true, s)

/-- `ReadDefinitionLevels(batch_size, levels)`: the level decoder yields
`min batch_size available` levels from the current page's definition-level
stream. -/
def ReadDefinitionLevels (s : CRState) (n : Nat) : Nat × List Int × CRState :=
  let lv := s.curDef.take n
  (lv.length, lv, { s with curDef := s.curDef.drop n })

/-- `ReadRepetitionLevels(batch_size, levels)`: likewise on the
repetition-level stream. -/
def ReadRepetitionLevels (s : CRState) (n : Nat) : Nat × List Int × CRState :=
  let lv := s.curRep.take n
  (lv.length, lv, { s with curRep := s.curRep.drop n })

/-- `_ReadValues(decoder, batch_size, out)`: the value decoder yields
`min batch_size available` values from the current page's value stream. -/
def ReadValues (s : CRState) (n : Nat) : List Int × CRState :=
  (s.curVals.take n, { s with curVals := s.curVals.drop n })

/-- `ColumnReader::ReadBatch(batch_size, def_levels, rep_levels, values,
values_read)` (column_reader.cpp lines 195-239, column_reader.cu lines
418-469).  `defPtr`/`repPtr` say whether the caller passed non-null level
buffers.  Result: `(total_values, decoded def levels, decoded values,
values_read, state)`; a rep/def level count mismatch throws. -/
def ReadBatch (s0 : CRState) (batchSize : Nat) (defPtr repPtr : Bool) :
    Except String (Nat × List Int × List Int × Nat × CRState) :=
  match HasNext s0 with
  | (false, s) => .ok (0, [], [], 0, s)
  | (true, s) =>
    let bs := min batchSize (s.numBuffered - s.numDecoded)
    let defStep :=
      if 0 < s.maxDef ∧ defPtr then ReadDefinitionLevels s bs else (0, [], s)
    let numDefLevels := defStep.1
    let defOut := defStep.2.1
    let s1 := defStep.2.2
    let valuesToRead := if 0 < s.maxDef ∧ defPtr then countEq defOut s.maxDef else bs
    let repStep : Except String CRState :=
      if 0 < s.maxRep ∧ repPtr then
        let r := ReadRepetitionLevels s1 bs
        if defPtr ∧ numDefLevels ≠ r.1 then
          .error "Number of decoded rep / def levels did not match"
        else .ok r.2.2
      else .ok s1
    match repStep with
    | .error e => .error e
    | .ok s2 =>
      let v := ReadValues s2 valuesToRead
      let valuesRead := v.1.length
      let totalValues := max numDefLevels valuesRead
      .ok (totalValues, defOut, v.1, valuesRead,
           { v.2 with numDecoded := v.2.numDecoded + totalValues })

/-- Accumulated artifacts of the `ToGdfColumn` read loop: the
`rows_read_total` and `values_read_counter` counters, the definition-level
buffer prefix written so far, the output data buffer, the bitmap bits and
the running null count. -/
structure GdfRun where
  rowsTotal : Nat
  valuesCount : Nat
  defBuf : List Int
  dataBuf : List Int
  bits : List Bool
  nullCount : Nat
deriving DecidableEq, Repr

/-- Overwrite `buf[off + k] := vals[k]` (a pointer-offset write into a
caller-owned buffer). -/
def writeAt (buf : List Int) (off : Nat) (vals : List Int) : List Int :=
  buf.take off ++ vals ++ buf.drop (off + vals.length)

/-- The `while (this->HasNext())` loop of `ColumnReader::ToGdfColumn`
(column_reader.cu lines 840-893): each pass reads a batch of at most `vtr`
rows (definition levels into the level buffer at `rows_read_total`, dense
values into the data buffer at `values_read_counter`), builds the chunk's
bitmap, and accumulates counters.  `none` means fuel ran out (the C++ loop
diverges when a batch makes no progress). -/
def ToGdfColumnGo (fuel : Nat) (vtr : Nat) (s : CRState) (acc : GdfRun) :
    Option (Except String (GdfRun × CRState)) :=
  match fuel with
  | 0 => none
  | fuel + 1 =>
    match HasNext s with
    | (false, s') => some (.ok (acc, s'))
    | (true, s1) =>
      match ReadBatch s1 vtr true false with
      | .error e => some (.error e)
      | .ok (rowsRead, defOut, vals, valuesRead, s') =>
        match DefinitionLevelsToBitmap defOut s1.maxDef [] 0 with
        | .error e => some (.error e)
        | .ok (chunkBits, chunkNulls) =>
          ToGdfColumnGo fuel vtr s'
            { rowsTotal := acc.rowsTotal + rowsRead
              valuesCount := acc.valuesCount + valuesRead
              defBuf := acc.defBuf ++ defOut
              dataBuf := writeAt acc.dataBuf acc.valuesCount vals
              bits := acc.bits ++ chunkBits
              nullCount := acc.nullCount + chunkNulls }

/-- `ColumnReader::ToGdfColumn` (column_reader.cu lines 840-893): fix the
per-pass batch size `min 8 (buffered - decoded)`, run the read loop, then,
when `rows_read_total != values_read_counter`, run the compaction pass that
scatters the dense value prefix to its sparse row positions.  Returns
`(rows_read_total, data, bitmap bits, null count)`. -/
def ToGdfColumn (fuel : Nat) (s : CRState) (data0 : List Int) :
    Option (Except String (Nat × List Int × List Bool × Nat)) :=
  let vtr := min 8 (s.numBuffered - s.numDecoded)
  match ToGdfColumnGo fuel vtr s
      { rowsTotal := 0, valuesCount := 0, defBuf := [], dataBuf := data0
        bits := [], nullCount := 0 } with
  | none => none
  | some (.error e) => some (.error e)
  | some (.ok (acc, _)) =>
    let data :=
      if acc.rowsTotal ≠ acc.valuesCount then
        compact_to_sparse_for_nulls (acc.dataBuf.take acc.rowsTotal) acc.defBuf
          s.maxDef acc.dataBuf
      else acc.dataBuf
    some (.ok (acc.rowsTotal, data, acc.bits, acc.nullCount))

/-- `gdf_error` values reachable from `read_parquet` (src/unnamed/part_003). -/
inductive GdfError
  | GDF_SUCCESS
  | GDF_IO_ERROR
deriving DecidableEq, Repr

/-- The metadata of an opened Parquet file as `read_parquet` consumes it. -/
structure ParquetFile where
  columnNames : List String
  numRows : Nat
  numRowGroups : Nat
deriving DecidableEq, Repr

/-- `ColumnNames::IndexOf` (part_003 lines 301-305): `std::find` distance —
the first index of `name`, or the list length when absent. -/
def IndexOf (names : List String) (name : String) : Nat :=
  match names with
  | [] => 0
  | n :: rest => if n = name then 0 else IndexOf rest name + 1

/-- The per-name loop of `ColumnFilter::IndicesFrom` (part_003 lines
337-350): keep `IndexOf` results that satisfy `Contains` (index < size);
unmatched names are dropped. -/
def IndicesFromGo : List String → List String → List Nat
  | [], _ => []
  | fn :: rest, cols =>
    if IndexOf cols fn < cols.length then IndexOf cols fn :: IndicesFromGo rest cols
    else IndicesFromGo rest cols

/-- `ColumnFilter::IndicesFrom` (part_003 lines 327-353): an empty filter
selects every column; otherwise each filter name is looked up and unmatched
names are silently dropped. -/
def IndicesFrom (filterNames columnNames : List String) : List Nat :=
  if filterNames = [] then List.range columnNames.length
  else IndicesFromGo filterNames columnNames

/-- `read_parquet` (part_003 lines 385-428), with buffer allocation and the
per-column read loop modelled as succeeding (every physical type of the
source's switch is handled there, and allocation failure is out of scope):
a non-null engine, a failed open, zero row groups or zero rows each yield
`GDF_IO_ERROR`; otherwise `*out_gdf_columns_length = indices.size()` and
`GDF_SUCCESS`. -/
def read_parquet (file : Option ParquetFile) (engine : Option String)
    (columns : Option (List String)) : GdfError × Option Nat :=
  if engine.isSome then (.GDF_IO_ERROR, none)
  else
    match file with
    | none => (.GDF_IO_ERROR, none)
    | some f =>
      if f.numRowGroups = 0 then (.GDF_IO_ERROR, none)
      else if f.numRows = 0 then (.GDF_IO_ERROR, none)
      else
        let filterNames := columns.getD []
        let indices := IndicesFrom filterNames f.columnNames
        (.GDF_SUCCESS, some indices.length)

/-! ### Helper lemmas -/

theorem countLt_nil (m : Int) : countLt [] m = 0 := rfl

theorem countLt_cons (l : Int) (rest : List Int) (m : Int) :
    countLt (l :: rest) m = countLt rest m + if l < m then 1 else 0 := by
  simp [countLt, List.countP_cons]

theorem countEq_nil (m : Int) : countEq [] m = 0 := rfl

theorem countEq_cons (l : Int) (rest : List Int) (m : Int) :
    countEq (l :: rest) m = countEq rest m + if l = m then 1 else 0 := by
  simp [countEq, List.countP_cons]

theorem DefinitionLevelsToBitmap_ok_of_le (levels : List Int) (maxd : Int) :
    ∀ bits nulls, (∀ l ∈ levels, l ≤ maxd) →
      DefinitionLevelsToBitmap levels maxd bits nulls
        = .ok (bits ++ levels.map (fun l => l == maxd), nulls + countLt levels maxd) := by
  induction levels with
  | nil => intro bits nulls _; simp [DefinitionLevelsToBitmap, countLt]
  | cons l rest ih =>
    intro bits nulls hle
    by_cases h : l = maxd
    · subst h
      rw [DefinitionLevelsToBitmap, if_pos rfl, ih _ _ fun x hx => hle x (.tail _ hx)]
      simp [countLt_cons]
    · have hlt : l < maxd := lt_of_le_of_ne (hle l (.head _)) h
      rw [DefinitionLevelsToBitmap, if_neg h, if_pos hlt,
        ih _ _ fun x hx => hle x (.tail _ hx)]
      simp [countLt_cons, hlt, h]
      omega

theorem DefinitionLevelsToBitmapSpaced_zero_rep (levels : List Int) (maxd : Int) :
    ∀ bits nulls,
      DefinitionLevelsToBitmapSpaced levels maxd 0 bits nulls
        = DefinitionLevelsToBitmap levels maxd bits nulls := by
  induction levels with
  | nil => intro bits nulls; rfl
  | cons l rest ih =>
    intro bits nulls
    by_cases h : l = maxd
    · rw [DefinitionLevelsToBitmapSpaced, DefinitionLevelsToBitmap, if_pos h, if_pos h, ih]
    · by_cases h' : l < maxd
      · rw [DefinitionLevelsToBitmapSpaced, DefinitionLevelsToBitmap, if_neg h, if_neg h,
          if_neg (lt_irrefl 0), if_pos h', if_pos h', ih]
      · rw [DefinitionLevelsToBitmapSpaced, DefinitionLevelsToBitmap, if_neg h, if_neg h,
          if_neg (lt_irrefl 0), if_neg h', if_neg h']

theorem DefinitionLevelsToBitmap_error_of_exceeds (levels : List Int) (maxd : Int) :
    (∃ l ∈ levels, maxd < l) → ∀ bits nulls,
      DefinitionLevelsToBitmap levels maxd bits nulls
        = .error "definition level exceeds maximum" := by
  induction levels with
  | nil => rintro ⟨l, hl, -⟩; cases hl
  | cons l rest ih =>
    rintro ⟨x, hx, hxgt⟩ bits nulls
    by_cases h : l = maxd
    · rw [DefinitionLevelsToBitmap, if_pos h]
      refine ih ⟨x, ?_, hxgt⟩ _ _
      cases hx with
      | head => exact absurd (h ▸ hxgt) (lt_irrefl maxd)
      | tail _ hx => exact hx
    · by_cases h' : l < maxd
      · rw [DefinitionLevelsToBitmap, if_neg h, if_pos h']
        refine ih ⟨x, ?_, hxgt⟩ _ _
        cases hx with
        | head => exact absurd hxgt (not_lt.2 h'.le)
        | tail _ hx => exact hx
      · rw [DefinitionLevelsToBitmap, if_neg h, if_neg h']

theorem IndexOf_lt_length_iff (cols : List String) (n : String) :
    IndexOf cols n < cols.length ↔ n ∈ cols := by
  induction cols with
  | nil => simp [IndexOf]
  | cons c rest ih =>
    by_cases h : c = n
    · subst h; simp [IndexOf]
    · rw [IndexOf, if_neg h]
      simp only [List.length_cons, List.mem_cons, Nat.add_lt_add_iff_right, ih]
      constructor
      · exact Or.inr
      · rintro (rfl | hm)
        · exact absurd rfl h
        · exact hm

theorem IndicesFromGo_length (fs cols : List String) :
    (IndicesFromGo fs cols).length = fs.countP fun n => decide (n ∈ cols) := by
  induction fs with
  | nil => rfl
  | cons fn rest ih =>
    by_cases h : fn ∈ cols
    · rw [IndicesFromGo, if_pos ((IndexOf_lt_length_iff cols fn).2 h), List.length_cons, ih,
        List.countP_cons]
      simp [h]
    · rw [IndicesFromGo, if_neg fun hlt => h ((IndexOf_lt_length_iff cols fn).1 hlt), ih,
        List.countP_cons]
      simp [h]

theorem IndicesFromGo_filter_matched (fs cols : List String) :
    IndicesFromGo fs cols
      = IndicesFromGo (fs.filter fun n => decide (n ∈ cols)) cols := by
  induction fs with
  | nil => rfl
  | cons fn rest ih =>
    by_cases h : fn ∈ cols
    · rw [IndicesFromGo, if_pos ((IndexOf_lt_length_iff cols fn).2 h),
        List.filter_cons_of_pos (by simpa using h), IndicesFromGo,
        if_pos ((IndexOf_lt_length_iff cols fn).2 h), ih]
    · rw [IndicesFromGo, if_neg fun hlt => h ((IndexOf_lt_length_iff cols fn).1 hlt),
        List.filter_cons_of_neg (by simpa using h), ih]

theorem countEq_append (a b : List Int) (m : Int) :
    countEq (a ++ b) m = countEq a m + countEq b m := by
  simp [countEq, List.countP_append]

theorem countLt_append (a b : List Int) (m : Int) :
    countLt (a ++ b) m = countLt a m + countLt b m := by
  simp [countLt, List.countP_append]

theorem countEq_le_length (a : List Int) (m : Int) : countEq a m ≤ a.length :=
  List.countP_le_length _

theorem countEq_take_le (a : List Int) (n : Nat) (m : Int) :
    countEq (a.take n) m ≤ countEq a m :=
  List.Sublist.countP_le _ (List.take_sublist n a)

theorem copyIfIndices_length (levels : List Int) (maxd : Int) :
    ∀ start, (copyIfIndices start levels maxd).length = countEq levels maxd := by
  induction levels with
  | nil => intro start; rfl
  | cons l rest ih =>
    intro start
    by_cases h : l = maxd
    · rw [copyIfIndices, if_pos h, List.length_cons, ih, countEq_cons, if_pos h]
    · rw [copyIfIndices, if_neg h, ih, countEq_cons, if_neg h]
      omega

theorem copyIfIndices_mem_ge (levels : List Int) (maxd : Int) :
    ∀ start j, j ∈ copyIfIndices start levels maxd → start ≤ j := by
  induction levels with
  | nil => intro start j hj; cases hj
  | cons l rest ih =>
    intro start j hj
    by_cases h : l = maxd
    · rw [copyIfIndices, if_pos h] at hj
      cases hj with
      | head => exact le_refl _
      | tail _ hj => exact le_of_lt (lt_of_lt_of_le (Nat.lt_succ_self start) (ih _ j hj))
    · rw [copyIfIndices, if_neg h] at hj
      exact le_of_lt (lt_of_lt_of_le (Nat.lt_succ_self start) (ih _ j hj))

theorem copyIfIndices_mem_lt (levels : List Int) (maxd : Int) :
    ∀ start j, j ∈ copyIfIndices start levels maxd → j < start + levels.length := by
  induction levels with
  | nil => intro start j hj; cases hj
  | cons l rest ih =>
    intro start j hj
    by_cases h : l = maxd
    · rw [copyIfIndices, if_pos h] at hj
      cases hj with
      | head => simp
      | tail _ hj => have := ih _ j hj; simp at this ⊢; omega
    · rw [copyIfIndices, if_neg h] at hj
      have := ih _ j hj
      simp at this ⊢
      omega

theorem copyIfIndices_pairwise (levels : List Int) (maxd : Int) :
    ∀ start, List.Pairwise (· < ·) (copyIfIndices start levels maxd) := by
  induction levels with
  | nil => intro start; exact List.Pairwise.nil
  | cons l rest ih =>
    intro start
    by_cases h : l = maxd
    · rw [copyIfIndices, if_pos h]
      exact List.Pairwise.cons
        (fun j hj => lt_of_lt_of_le (Nat.lt_succ_self start)
          (copyIfIndices_mem_ge rest maxd _ j hj)) (ih _)
    · rw [copyIfIndices, if_neg h]
      exact ih _

theorem thrustScatter_length : ∀ (is : List Nat) (vs out : List Int),
    (thrustScatter vs is out).length = out.length := by
  intro is
  induction is with
  | nil => intro vs out; cases vs <;> rfl
  | cons i is ih =>
    intro vs out
    cases vs with
    | nil => rfl
    | cons v vs => rw [thrustScatter, ih, List.length_set]

theorem thrustScatter_getD_not_mem : ∀ (is : List Nat) (vs out : List Int) (p : Nat),
    p ∉ is → (thrustScatter vs is out).getD p 0 = out.getD p 0 := by
  intro is
  induction is with
  | nil => intro vs out p _; cases vs <;> rfl
  | cons i is ih =>
    intro vs out p hp
    cases vs with
    | nil => rfl
    | cons v vs =>
      rw [thrustScatter, ih vs _ p fun h => hp (List.mem_cons_of_mem _ h)]
      have hpi : i ≠ p := fun h => hp (h ▸ List.mem_cons_self i is)
      simp [List.getElem?_set_ne hpi]

theorem thrustScatter_getD_at : ∀ (is : List Nat) (vs out : List Int) (k : Nat),
    List.Pairwise (· < ·) is → (∀ i ∈ is, i < out.length) →
    k < vs.length → k < is.length →
    (thrustScatter vs is out).getD (is.getD k 0) 0 = vs.getD k 0 := by
  intro is
  induction is with
  | nil => intro vs out k _ _ _ hk; simp at hk
  | cons i is ih =>
    intro vs out k hpw hbnd hkv hki
    cases vs with
    | nil => simp at hkv
    | cons v vs =>
      rw [thrustScatter]
      cases k with
      | zero =>
        have hnot : i ∉ is := fun h =>
          lt_irrefl i (List.rel_of_pairwise_cons hpw h)
        rw [List.getD_cons_zero, thrustScatter_getD_not_mem is vs _ i hnot,
          List.getD_cons_zero]
        have hi : i < out.length := hbnd i (List.mem_cons_self i is)
        simp [List.getElem?_set_self', hi]
      | succ k =>
        rw [List.getD_cons_succ, List.getD_cons_succ]
        exact ih vs (out.set i v) k hpw.of_cons
          (fun j hj => by rw [List.length_set]; exact hbnd j (List.mem_cons_of_mem _ hj))
          (by simpa using hkv) (by simpa using hki)

theorem writeAt_zero (buf vals : List Int) :
    writeAt buf 0 vals = vals ++ buf.drop vals.length := by
  simp [writeAt]

theorem writeAt_length (buf vals : List Int) (h : vals.length ≤ buf.length) :
    (writeAt buf 0 vals).length = buf.length := by
  rw [writeAt_zero, List.length_append, List.length_drop]
  omega

theorem writeAt_writeAt (buf p v : List Int) :
    writeAt (writeAt buf 0 p) p.length v = writeAt buf 0 (p ++ v) := by
  rw [writeAt_zero, writeAt, writeAt_zero]
  rw [List.take_left]
  have hdrop : (p ++ buf.drop p.length).drop (p.length + v.length)
      = (buf.drop p.length).drop v.length := by
    rw [← List.drop_drop, List.drop_left]
  rw [hdrop, List.drop_drop, List.length_append, List.append_assoc]

theorem RleDecoder.counterInv_iff (d : RleDecoder) :
    d.CounterInv ↔ (d.repeatCount = 0 ∨ d.literalCount = 0) := Iff.rfl

theorem RleDecoder.NextCounts_none_of_vlq_none (d : RleDecoder)
    (hvlq : d.bitReader.GetVlqInt = none) : d.NextCounts = none := by
  rw [RleDecoder.NextCounts, hvlq]

theorem RleDecoder.NextCounts_counterInv (d : RleDecoder)
    (hrep : d.repeatCount = 0) (hlit : d.literalCount = 0) :
    ∀ d', d.NextCounts = some d' → d'.CounterInv := by
  intro d' hnc
  rw [RleDecoder.NextCounts] at hnc
  cases hv : d.bitReader.GetVlqInt with
  | none => rw [hv] at hnc; cases hnc
  | some p =>
    rw [hv] at hnc
    obtain ⟨ind, br⟩ := p
    dsimp only at hnc
    by_cases ho : ind % 2 = 1
    · rw [if_pos ho] at hnc
      cases hnc
      exact Or.inl hrep
    · rw [if_neg ho] at hnc
      cases ha : br.GetAligned ((d.bitWidth + 7) / 8) with
      | some q =>
        obtain ⟨v, br2⟩ := q
        rw [ha] at hnc
        cases hnc
        exact Or.inr hlit
      | none =>
        rw [ha] at hnc
        cases hnc
        exact Or.inr hlit

theorem RleDecoder.GetBatchGo_zero_rem (fuel : Nat) (d : RleDecoder) (acc : List Nat) :
    RleDecoder.GetBatchGo fuel d 0 acc = (acc, 0, d) := by
  cases fuel with
  | zero => rfl
  | succ fuel => rw [RleDecoder.GetBatchGo]; simp

theorem RleDecoder.GetBatchGo_of_nextCounts_none (d : RleDecoder)
    (hrep : d.repeatCount = 0) (hlit : d.literalCount = 0) (hnc : d.NextCounts = none) :
    ∀ fuel rem acc, RleDecoder.GetBatchGo fuel d rem acc = (acc, rem, d) := by
  intro fuel rem acc
  cases fuel with
  | zero => rfl
  | succ fuel =>
    rw [RleDecoder.GetBatchGo]
    by_cases hrem : rem = 0
    · simp [hrem]
    · rw [if_neg hrem, if_neg (by omega), if_neg (by omega)]
      simp only [hnc]

theorem RleDecoder.GetBatchGo_counterInv :
    ∀ (fuel : Nat) (d : RleDecoder) (rem : Nat) (acc : List Nat),
      d.CounterInv → (RleDecoder.GetBatchGo fuel d rem acc).2.2.CounterInv := by
  intro fuel
  induction fuel with
  | zero => intro d rem acc hinv; exact hinv
  | succ fuel ih =>
    intro d rem acc hinv
    rw [RleDecoder.GetBatchGo]
    by_cases hrem : rem = 0
    · simpa [hrem] using hinv
    · rw [if_neg hrem]
      by_cases hr : 0 < d.repeatCount
      · rw [if_pos hr]
        refine ih _ _ _ ?_
        rcases (RleDecoder.counterInv_iff d).1 hinv with h0 | h0
        · omega
        · exact Or.inr h0
      · rw [if_neg hr]
        by_cases hl : 0 < d.literalCount
        · rw [if_pos hl]
          exact ih _ _ _ (Or.inl (show d.repeatCount = 0 by omega))
        · rw [if_neg hl]
          cases hnc : d.NextCounts with
          | none => simpa [hnc] using hinv
          | some d' =>
            simp only [hnc]
            exact ih _ _ _ (RleDecoder.NextCounts_counterInv d (by omega) (by omega) d' hnc)

theorem RleDecoder.getBatch_within_repeat (d : RleDecoder) (n : Nat)
    (h : n ≤ d.repeatCount) :
    d.GetBatch n
      = (List.replicate n d.currentValue, n, { d with repeatCount := d.repeatCount - n }) := by
  rcases Nat.eq_zero_or_pos n with hn | hn
  · subst hn
    obtain ⟨bitr, bw, cv, rc, lc⟩ := d
    rw [RleDecoder.GetBatch, RleDecoder.GetBatchGo_zero_rem]
    simp
  · obtain ⟨m, rfl⟩ : ∃ m, n = m + 1 := ⟨n - 1, by omega⟩
    have hr : 0 < d.repeatCount := lt_of_lt_of_le hn h
    rw [RleDecoder.GetBatch, RleDecoder.GetBatchGo]
    simp only [if_neg (Nat.succ_ne_zero m), if_pos hr, min_eq_left h, Nat.sub_self,
      List.nil_append, RleDecoder.GetBatchGo_zero_rem, Nat.sub_zero]

theorem RleDecoder.getBatch_eq_of_vlq_none (d : RleDecoder) (n : Nat)
    (hlit : d.literalCount = 0) (hrep : d.repeatCount ≤ n)
    (hvlq : d.bitReader.GetVlqInt = none) :
    d.GetBatch n
      = (List.replicate d.repeatCount d.currentValue, d.repeatCount,
         { d with repeatCount := 0 }) := by
  have hnc : d.NextCounts = none := RleDecoder.NextCounts_none_of_vlq_none d hvlq
  rcases Nat.eq_zero_or_pos d.repeatCount with hr | hr
  · rw [RleDecoder.GetBatch,
      RleDecoder.GetBatchGo_of_nextCounts_none d hr hlit hnc _ n []]
    obtain ⟨bitr, bw, cv, rc, lc⟩ := d
    simp only at hr
    subst hr
    simp
  · obtain ⟨m, rfl⟩ : ∃ m, n = m + 1 := ⟨n - 1, by omega⟩
    have hstep := RleDecoder.GetBatchGo_of_nextCounts_none { d with repeatCount := 0 } rfl hlit
      (RleDecoder.NextCounts_none_of_vlq_none _ hvlq)
      (m + 1 + d.bitReader.buffer.length) (m + 1 - d.repeatCount)
      (List.replicate d.repeatCount d.currentValue)
    rw [RleDecoder.GetBatch, RleDecoder.GetBatchGo]
    simp only [if_neg (Nat.succ_ne_zero m), if_pos hr, min_eq_right hrep, List.nil_append,
      Nat.sub_self]
    rw [hstep, Nat.sub_sub_self hrep]

theorem ToGdfColumnGo_run (D V data0 : List Int) (maxd maxr : Int) (vtr : Nat)
    (hvtr : 0 < vtr) (hmaxd : 0 < maxd) (hle : ∀ l ∈ D, l ≤ maxd)
    (hV : V.length = countEq D maxd) :
    ∀ fuel d, D.length - d < fuel → d ≤ D.length →
      ToGdfColumnGo fuel vtr
          { pages := [], numBuffered := D.length, numDecoded := d,
            curDef := D.drop d, curRep := [],
            curVals := V.drop (countEq (D.take d) maxd),
            maxDef := maxd, maxRep := maxr }
          { rowsTotal := d, valuesCount := countEq (D.take d) maxd,
            defBuf := D.take d,
            dataBuf := writeAt data0 0 (V.take (countEq (D.take d) maxd)),
            bits := (D.take d).map (fun l => l == maxd),
            nullCount := countLt (D.take d) maxd }
        = some (.ok (
            { rowsTotal := D.length, valuesCount := countEq D maxd,
              defBuf := D, dataBuf := writeAt data0 0 V,
              bits := D.map (fun l => l == maxd), nullCount := countLt D maxd },
            { pages := [], numBuffered := D.length, numDecoded := D.length,
              curDef := [], curRep := [], curVals := [],
              maxDef := maxd, maxRep := maxr })) := by
  intro fuel
  induction fuel with
  | zero => intro d hfuel hd; omega
  | succ fuel ih =>
    intro d hfuel hd
    rcases eq_or_lt_of_le hd with hdl | hdlt
    · subst hdl
      rw [ToGdfColumnGo, HasNext, if_pos (Or.inr rfl)]
      simp [ReadNewPage, List.take_length, List.drop_length, ← hV]
    · have hnotend : ¬(D.length = 0 ∨ d = D.length) := by omega
      have hsplit : countEq D maxd
          = countEq (D.take d) maxd + countEq (D.drop d) maxd := by
        conv_lhs => rw [← List.take_append_drop d D]
        rw [countEq_append]
      set cD := countEq (D.take d) maxd with hcD
      set bs := min vtr (D.length - d) with hbs
      have hbs1 : 0 < bs := by rw [hbs]; omega
      have hbsle : bs ≤ D.length - d := min_le_right _ _
      set lv := (D.drop d).take bs with hlv
      have hlvlen : lv.length = bs := by
        rw [hlv, List.length_take, List.length_drop]
        omega
      set cLv := countEq lv maxd with hcLv
      have hcLv_le_bs : cLv ≤ bs := hlvlen ▸ countEq_le_length lv maxd
      have hcLv_le_drop : cLv ≤ countEq (D.drop d) maxd := by
        rw [hcLv, hlv]
        exact countEq_take_le _ _ _
      have hcD_le : cD ≤ V.length := by omega
      set vals := (V.drop cD).take cLv with hvals
      have hvalslen : vals.length = cLv := by
        rw [hvals, List.length_take, List.length_drop]
        omega
      have hlvle : ∀ l ∈ lv, l ≤ maxd := fun l hl =>
        hle l (List.mem_of_mem_drop (List.mem_of_mem_take hl))
      have hbm : DefinitionLevelsToBitmap lv maxd [] 0
          = .ok (lv.map (fun l => l == maxd), countLt lv maxd) := by
        simpa using DefinitionLevelsToBitmap_ok_of_le lv maxd [] 0 hlvle
      -- compute the batch read
      have hrb : ReadBatch
          { pages := [], numBuffered := D.length, numDecoded := d,
            curDef := D.drop d, curRep := [], curVals := V.drop cD,
            maxDef := maxd, maxRep := maxr } vtr true false
          = .ok (bs, lv, vals, cLv,
              { pages := [], numBuffered := D.length, numDecoded := d + bs,
                curDef := (D.drop d).drop bs, curRep := [],
                curVals := (V.drop cD).drop cLv,
                maxDef := maxd, maxRep := maxr }) := by
        have hcond : (0 : Int) < maxd ∧ true = true := ⟨hmaxd, rfl⟩
        have hcond2 : ¬((0 : Int) < maxr ∧ false = true) := fun h => by simpa using h.2
        rw [ReadBatch, HasNext, if_neg hnotend]
        dsimp only [ReadDefinitionLevels, ReadValues]
        rw [if_pos hcond, if_neg hcond2]
        dsimp only
        rw [if_pos hcond]
        rw [← hbs, ← hlv, hlvlen, ← hcLv, ← hvals, hvalslen, max_eq_left hcLv_le_bs]
      have htake : D.take (d + bs) = D.take d ++ lv := by
        rw [List.take_add, hlv]
      have hcnt : countEq (D.take (d + bs)) maxd = cD + cLv := by
        rw [htake, countEq_append, ← hcD, ← hcLv]
      have hnullcnt : countLt (D.take (d + bs)) maxd
          = countLt (D.take d) maxd + countLt lv maxd := by
        rw [htake, countLt_append]
      have hVtake : V.take (cD + cLv) = V.take cD ++ vals := by
        rw [List.take_add, hvals]
      have hwa : writeAt (writeAt data0 0 (V.take cD)) cD vals
          = writeAt data0 0 (V.take (cD + cLv)) := by
        have h1 : writeAt (writeAt data0 0 (V.take cD)) (V.take cD).length vals
            = writeAt data0 0 (V.take cD ++ vals) := writeAt_writeAt data0 (V.take cD) vals
        rw [List.length_take, min_eq_left hcD_le] at h1
        rw [h1, hVtake]
      rw [ToGdfColumnGo, HasNext, if_neg hnotend]
      dsimp only
      rw [hrb]
      dsimp only
      rw [hbm]
      dsimp only
      rw [hwa, List.drop_drop, List.drop_drop]
      have hrec := ih (d + bs) (by omega) (by omega)
      rw [hcnt, hnullcnt, htake, List.map_append] at hrec
      exact hrec

/-! ### Claim theorems -/

/-- C1. Whenever both run counters are exhausted (`repeat_count = 0` and
`literal_count = 0`), `GetBatch` reads the next run header through
`NextCounts` as a VLQ-encoded integer: low bit 1 enters a literal run of
`(header >> 1) * 8` values (unpacked at `bit_width` bits each by the
subsequent literal branch), low bit 0 enters a repeated run of
`header >> 1` copies of a `current_value` read as `ceil(bit_width / 8)`
aligned bytes immediately after the header. -/
theorem RleDecoder.run_header_discrimination (d : RleDecoder) (h : Nat) (br : BitReader)
    (hrep : d.repeatCount = 0) (hlit : d.literalCount = 0)
    (hvlq : d.bitReader.GetVlqInt = some (h, br)) :
    (h % 2 = 1 →
      d.NextCounts = some { d with bitReader := br, literalCount := (h >>> 1) * 8 })
    ∧ (h % 2 = 0 →
      d.NextCounts = some
        (match br.GetAligned ((d.bitWidth + 7) / 8) with
         | some (v, br2) =>
             { d with bitReader := br2, repeatCount := h >>> 1, currentValue := v }
         | none => { d with bitReader := br, repeatCount := h >>> 1 }))
    ∧ (∀ fuel n acc,
        RleDecoder.GetBatchGo (fuel + 1) d (n + 1) acc
          = match d.NextCounts with
            | none => (acc, n + 1, d)
            | some d' => RleDecoder.GetBatchGo fuel d' (n + 1) acc) := by
  refine ⟨?_, ?_, ?_⟩
  · intro hodd
    rw [RleDecoder.NextCounts, hvlq]
    simp [hodd]
  · intro heven
    rw [RleDecoder.NextCounts, hvlq]
    dsimp only
    rw [if_neg (by omega)]
    cases br.GetAligned ((d.bitWidth + 7) / 8) with
    | none => rfl
    | some q => obtain ⟨v, br2⟩ := q; rfl
  · intro fuel n acc
    rw [RleDecoder.GetBatchGo]
    simp [hrep, hlit]

/-- C1 witness: buffer `[0x04, 0x2A]` with `bit_width = 8` decodes header 4
(even) into a repeated run of 2 copies of value 42; buffer `[0x03, 0xB4]`
with `bit_width = 1` decodes header 3 (odd) into a literal run of
`(3 >> 1) * 8 = 8` values. -/
theorem RleDecoder.run_header_discrimination_witness :
    (RleDecoder.init [4, 42] 8).NextCounts
        = some { bitReader := { buffer := [4, 42], bitPos := 16 }, bitWidth := 8,
                 currentValue := 42, repeatCount := 2, literalCount := 0 }
    ∧ (RleDecoder.init [3, 180] 1).NextCounts
        = some { bitReader := { buffer := [3, 180], bitPos := 8 }, bitWidth := 1,
                 currentValue := 0, repeatCount := 0, literalCount := 8 } := by
  have h1 := RleDecoder.run_header_discrimination (RleDecoder.init [4, 42] 8) 4
    { buffer := [4, 42], bitPos := 8 } rfl rfl (by decide)
  have h2 := RleDecoder.run_header_discrimination (RleDecoder.init [3, 180] 1) 3
    { buffer := [3, 180], bitPos := 8 } rfl rfl (by decide)
  exact ⟨by rw [h1.2.1 rfl]; rfl, by rw [h2.1 rfl]; rfl⟩

/-- C5. When the VLQ run-header read fails because the byte stream is
exhausted, `GetBatch` ends the batch early and returns the count of values
produced so far (possibly 0) as an ordinary return value — the model is a
total function into `List × count × state`, not an `Except`, so no
`ProtocolError`/`NotImplemented` exception is involved: end-of-stream is
signalled purely by the returned count. -/
theorem RleDecoder.getBatch_end_of_stream (d : RleDecoder) (n : Nat)
    (hlit : d.literalCount = 0) (hrep : d.repeatCount ≤ n)
    (hvlq : d.bitReader.GetVlqInt = none) :
    d.GetBatch n
      = (List.replicate d.repeatCount d.currentValue, d.repeatCount,
         { d with repeatCount := 0 }) :=
  RleDecoder.getBatch_eq_of_vlq_none d n hlit hrep hvlq

/-- C5 witness: a decoder mid-run (2 repeats of 7 pending) over an empty
buffer: `GetBatch 5` returns the 2 values produced so far and count 2. -/
theorem RleDecoder.getBatch_end_of_stream_witness :
    RleDecoder.GetBatch
        { bitReader := { buffer := [], bitPos := 0 }, bitWidth := 3,
          currentValue := 7, repeatCount := 2, literalCount := 0 } 5
      = ([7, 7], 2,
         { bitReader := { buffer := [], bitPos := 0 }, bitWidth := 3,
           currentValue := 7, repeatCount := 0, literalCount := 0 }) := by
  have h := RleDecoder.getBatch_end_of_stream
    { bitReader := { buffer := [], bitPos := 0 }, bitWidth := 3,
      currentValue := 7, repeatCount := 2, literalCount := 0 } 5
    rfl (by decide) (by decide)
  simpa using h

/-- C7. The run-counter invariant: after construction, after every `Reset`,
and after every `GetBatch`, at most one of `repeat_count` and
`literal_count` is positive; while a repeated run covers the request no
header is read (the bit reader is untouched); and when both counters are
zero, producing values requires the next header read to succeed (a failed
read produces nothing). -/
theorem RleDecoder.counter_invariant :
    (∀ (buffer : List Nat) (bitWidth : Nat), (RleDecoder.init buffer bitWidth).CounterInv)
    ∧ (∀ (d : RleDecoder) (buffer : List Nat) (bitWidth : Nat),
        (d.Reset buffer bitWidth).CounterInv)
    ∧ (∀ (d : RleDecoder) (n : Nat), d.CounterInv → (d.GetBatch n).2.2.CounterInv)
    ∧ (∀ (d : RleDecoder) (n : Nat), n ≤ d.repeatCount →
        (d.GetBatch n).2.2.bitReader = d.bitReader)
    ∧ (∀ (d : RleDecoder) (n : Nat), d.repeatCount = 0 → d.literalCount = 0 →
        d.bitReader.GetVlqInt = none →
        (d.GetBatch n).1 = [] ∧ (d.GetBatch n).2.1 = 0) := by
  refine ⟨fun _ _ => Or.inl rfl, fun _ _ _ => Or.inl rfl, ?_, ?_, ?_⟩
  · intro d n hinv
    exact RleDecoder.GetBatchGo_counterInv _ _ _ _ hinv
  · intro d n hn
    rw [RleDecoder.getBatch_within_repeat d n hn]
  · intro d n hrep hlit hvlq
    rw [RleDecoder.getBatch_eq_of_vlq_none d n hlit (hrep ▸ Nat.zero_le n) hvlq]
    simp [hrep]

/-- C7 witness: concrete instances of the invariant clauses — after a
`GetBatch` over the two-run buffer `[0x04, 0x2A, 0x03, 0xB4]` at most one
counter is positive, and a repeat-covered batch leaves the bit reader
untouched. -/
theorem RleDecoder.counter_invariant_witness :
    (RleDecoder.GetBatch (RleDecoder.init [4, 42, 3, 180] 8) 3).2.2.CounterInv
    ∧ (RleDecoder.GetBatch
        { bitReader := { buffer := [9], bitPos := 0 }, bitWidth := 8,
          currentValue := 5, repeatCount := 4, literalCount := 0 } 3).2.2.bitReader
      = { buffer := [9], bitPos := 0 } := by
  refine ⟨RleDecoder.counter_invariant.2.2.1 (RleDecoder.init [4, 42, 3, 180] 8) 3
      (Or.inl rfl),
    RleDecoder.counter_invariant.2.2.2.1
      { bitReader := { buffer := [9], bitPos := 0 }, bitWidth := 8,
        currentValue := 5, repeatCount := 4, literalCount := 0 } 3 (by decide)⟩

/-- C8. Decoding after a `Reset` is deterministic and repeatable:
`Reset(buffer, len, bit_width)` reinitializes every decoder field, so
decoding the same page twice (with a `Reset` in between, whatever state the
first pass left) yields identical output values, identical counts and an
identical null count for the bitmap built from the output. -/
theorem RleDecoder.reset_decode_deterministic (d : RleDecoder) (buffer : List Nat)
    (bitWidth n : Nat) (maxd : Int) :
    ((((d.Reset buffer bitWidth).GetBatch n).2.2.Reset buffer bitWidth).GetBatch n)
        = (d.Reset buffer bitWidth).GetBatch n
    ∧ DefinitionLevelsToBitmap
        (((((d.Reset buffer bitWidth).GetBatch n).2.2.Reset buffer bitWidth).GetBatch n).1.map
          Int.ofNat) maxd [] 0
      = DefinitionLevelsToBitmap
          (((d.Reset buffer bitWidth).GetBatch n).1.map Int.ofNat) maxd [] 0 :=
  ⟨rfl, rfl⟩

/-- C3. When `ToGdfColumn`'s read loop ends with the dense value count
strictly below the row count, the compaction pass runs and scatters the
k-th densely decoded value to the output row holding the k-th definition
level equal to `max_definition_level` (the k-th `copy_if` index); rows
whose level is below the maximum are left untouched by the scatter (their
slots keep the pre-compaction buffer contents — don't-care values, with
validity carried only by the mask). -/
theorem toGdfColumn_compaction_scatter (D V data0 : List Int) (maxd maxr : Int)
    (hD : 0 < D.length) (hmaxd : 0 < maxd) (hle : ∀ l ∈ D, l ≤ maxd)
    (hV : V.length = countEq D maxd) (hdense : countEq D maxd < D.length)
    (hdata : D.length ≤ data0.length) :
    ∃ data,
      ToGdfColumn (D.length + 1)
          { pages := [], numBuffered := D.length, numDecoded := 0, curDef := D,
            curRep := [], curVals := V, maxDef := maxd, maxRep := maxr } data0
        = some (.ok (D.length, data, D.map (fun l => l == maxd), countLt D maxd))
      ∧ (∀ k, k < countEq D maxd →
          data.getD ((copyIfIndices 0 D maxd).getD k 0) 0 = V.getD k 0)
      ∧ (∀ p, p < data0.length → p ∉ copyIfIndices 0 D maxd →
          data.getD p 0 = (writeAt data0 0 V).getD p 0) := by
  have hVlen : V.length ≤ data0.length := by
    rw [hV]
    exact le_trans (le_of_lt hdense) hdata
  have hvtr : 0 < min 8 D.length := by omega
  have hrun := ToGdfColumnGo_run D V data0 maxd maxr (min 8 D.length) hvtr hmaxd hle hV
    (D.length + 1) 0 (by omega) (by omega)
  simp only [List.drop_zero, List.take_zero, countEq_nil, countLt_nil, List.map_nil] at hrun
  rw [show writeAt data0 0 [] = data0 by simp [writeAt]] at hrun
  rw [ToGdfColumn]
  dsimp only
  rw [Nat.sub_zero, hrun]
  dsimp only
  rw [if_pos (by omega : D.length ≠ countEq D maxd)]
  refine ⟨_, rfl, ?_, ?_⟩
  · intro k hk
    have hlen_out : (writeAt data0 0 V).length = data0.length := writeAt_length _ _ hVlen
    have hbnd : ∀ i ∈ copyIfIndices 0 D maxd, i < (writeAt data0 0 V).length := by
      intro i hi
      rw [hlen_out]
      have := copyIfIndices_mem_lt D maxd 0 i hi
      omega
    have hkin : k < ((writeAt data0 0 V).take D.length).length := by
      rw [List.length_take, hlen_out]
      omega
    have hkis : k < (copyIfIndices 0 D maxd).length := by
      rw [copyIfIndices_length]
      exact hk
    rw [compact_to_sparse_for_nulls,
      thrustScatter_getD_at (copyIfIndices 0 D maxd) _ _ k
        (copyIfIndices_pairwise D maxd 0) hbnd hkin hkis]
    have hkV : k < V.length := by omega
    have h1 : ((writeAt data0 0 V).take D.length).getD k 0 = (writeAt data0 0 V).getD k 0 := by
      simp [List.getElem?_take_of_lt (by omega : k < D.length)]
    rw [h1, writeAt_zero]
    simp [List.getElem?_append_left (by omega : k < V.length)]
  · intro p hp hpnot
    rw [compact_to_sparse_for_nulls, thrustScatter_getD_not_mem _ _ _ p hpnot]

/-- C3 witness: the spec's example — definition levels `[1,0,1]` with
`max_definition_level = 1` over dense values `[5,7]` compacts to
`data[0] = 5`, `data[2] = 7` (row 1 a don't-care), with mask bits
`[1,0,1]` packing to byte `0b101`. -/
theorem toGdfColumn_compaction_scatter_witness :
    (∃ data,
      ToGdfColumn 4 ⟨[], 3, 0, [1, 0, 1], [], [5, 7], 1, 0⟩ [0, 0, 0]
        = some (.ok (3, data, [true, false, true], 1))
      ∧ data.getD 0 0 = 5 ∧ data.getD 2 0 = 7)
    ∧ packBits [true, false, true] = [5] := by
  constructor
  · obtain ⟨data, h1, h2, h3⟩ := toGdfColumn_compaction_scatter [1, 0, 1] [5, 7] [0, 0, 0] 1 0
      (by decide) (by decide) (by decide) (by decide) (by decide) (by decide)
    exact ⟨data, h1, h2 0 (by decide), h2 1 (by decide)⟩
  · rfl

/-- C2. For a definition-level array with `max_repetition_level = 0` whose
levels are all at most `max_definition_level`, the bitmap-building step
(both `_DefinitionLevelsToBitmap` variants of column_reader.cu) sets bit `i`
iff `levels[i] = max_definition_level` and reports as null count the number
of levels strictly below the maximum. -/
theorem definition_levels_bitmap_rule (levels : List Int) (maxd : Int)
    (hle : ∀ l ∈ levels, l ≤ maxd) :
    DefinitionLevelsToBitmap levels maxd [] 0
        = .ok (levels.map (fun l => l == maxd), countLt levels maxd)
    ∧ DefinitionLevelsToBitmapSpaced levels maxd 0 [] 0
        = .ok (levels.map (fun l => l == maxd), countLt levels maxd) := by
  refine ⟨?_, ?_⟩
  · simpa using DefinitionLevelsToBitmap_ok_of_le levels maxd [] 0 hle
  · rw [DefinitionLevelsToBitmapSpaced_zero_rep]
    simpa using DefinitionLevelsToBitmap_ok_of_le levels maxd [] 0 hle

/-- C2 witness: the spec's own example `[2,2,1,2,0,2]` with
`max_definition_level = 2` gives mask bits `[1,1,0,1,0,1]` and null count 2. -/
theorem definition_levels_bitmap_rule_witness :
    DefinitionLevelsToBitmap [2, 2, 1, 2, 0, 2] 2 [] 0
        = .ok ([true, true, false, true, false, true], 2)
    ∧ DefinitionLevelsToBitmapSpaced [2, 2, 1, 2, 0, 2] 2 0 [] 0
        = .ok ([true, true, false, true, false, true], 2) := by
  have h := definition_levels_bitmap_rule [2, 2, 1, 2, 0, 2] 2 (by decide)
  exact ⟨by rw [h.1]; rfl, by rw [h.2]; rfl⟩

/-- C6 counterexample: the definition-level array `[3]` exceeds
`max_definition_level = 2`, yet with `max_repetition_level = 1` the
repetition-aware `_DefinitionLevelsToBitmap` (column_reader.cu lines
246-295) returns success (the out-of-range level is silently skipped as a
continuation), not a ProtocolError — refuting the claim for the
`max_repetition_level > 0` case. -/
theorem def_level_exceeds_cex :
    DefinitionLevelsToBitmapSpaced [3] 2 1 [] 0 = .ok ([], 0) ∧ (2 : Int) < 3 := by
  exact ⟨rfl, by decide⟩

/-- C6 amended: a level strictly above `max_definition_level` raises
"definition level exceeds maximum" only when `max_repetition_level = 0`
(in both `_DefinitionLevelsToBitmap` variants); when
`max_repetition_level > 0` the repetition-aware variant never fails, and the
dense-path `_GenerateNullBitmap` (column_reader.cpp) never fails either,
counting every non-max level as null (its bound is a debug-only assertion). -/
theorem def_level_exceeds_behavior (levels : List Int) (maxd : Int) :
    ((∃ l ∈ levels, maxd < l) → ∀ bits nulls,
        DefinitionLevelsToBitmap levels maxd bits nulls
          = .error "definition level exceeds maximum")
    ∧ ((∃ l ∈ levels, maxd < l) → ∀ bits nulls,
        DefinitionLevelsToBitmapSpaced levels maxd 0 bits nulls
          = .error "definition level exceeds maximum")
    ∧ (∀ maxr : Int, 0 < maxr → ∀ bits nulls, ∃ out,
        DefinitionLevelsToBitmapSpaced levels maxd maxr bits nulls = .ok out)
    ∧ (∀ fileLevel bits nulls,
        GenerateNullBitmap levels fileLevel bits nulls
          = (bits ++ levels.map (fun l => l == fileLevel),
             nulls + levels.countP fun l => !(l == fileLevel))) := by
  refine ⟨DefinitionLevelsToBitmap_error_of_exceeds levels maxd, ?_, ?_, ?_⟩
  · intro hex bits nulls
    rw [DefinitionLevelsToBitmapSpaced_zero_rep]
    exact DefinitionLevelsToBitmap_error_of_exceeds levels maxd hex bits nulls
  · intro maxr hmaxr
    induction levels with
    | nil => intro bits nulls; exact ⟨_, rfl⟩
    | cons l rest ih =>
      intro bits nulls
      by_cases h : l = maxd
      · rw [DefinitionLevelsToBitmapSpaced, if_pos h]; exact ih _ _
      · rw [DefinitionLevelsToBitmapSpaced, if_neg h, if_pos hmaxr]
        by_cases h' : l = maxd - 1
        · rw [if_pos h']; exact ih _ _
        · rw [if_neg h']; exact ih _ _
  · intro fileLevel
    induction levels with
    | nil => intro bits nulls; simp [GenerateNullBitmap]
    | cons l rest ih =>
      intro bits nulls
      by_cases h : l = fileLevel
      · rw [GenerateNullBitmap, if_pos h, ih]
        simp [List.countP_cons, h]
      · rw [GenerateNullBitmap, if_neg h, ih]
        simp only [List.map_cons, List.countP_cons, h]
        simp [h]
        omega

/-- C6 amended witness: for `[3]` against `max_definition_level = 2`, the
`max_repetition_level = 0` builders fail while the repetition-aware builder
succeeds. -/
theorem def_level_exceeds_behavior_witness :
    DefinitionLevelsToBitmap [3] 2 [] 0 = .error "definition level exceeds maximum"
    ∧ ∃ out, DefinitionLevelsToBitmapSpaced [3] 2 1 [] 0 = .ok out := by
  refine ⟨(def_level_exceeds_behavior [3] 2).1 ⟨3, by decide, by decide⟩ [] 0,
    (def_level_exceeds_behavior [3] 2).2.2.1 1 (by decide) [] 0⟩

/-- C4 counterexample: a reader whose page source holds an empty data page
followed by a non-empty one: `HasNext()` fetches the empty page and reports
`false` (end of column) even though a further page remains — it does not
advance past the empty page. -/
theorem hasNext_empty_page_cex :
    HasNext
        { pages := [⟨.data, 0, [], [], []⟩, ⟨.data, 3, [1, 1, 1], [], [7, 8, 9]⟩],
          numBuffered := 0, numDecoded := 0, curDef := [], curRep := [], curVals := [],
          maxDef := 1, maxRep := 0 }
      = (false,
          { pages := [⟨.data, 3, [1, 1, 1], [], [7, 8, 9]⟩],
            numBuffered := 0, numDecoded := 0, curDef := [], curRep := [], curVals := [],
            maxDef := 1, maxRep := 0 }) := by
  decide

/-- C4 amended: when the current page is absent or fully decoded,
`HasNext()` skips non-data pages, but upon fetching a data page declaring
`num_values == 0` it returns `false` — reporting end-of-column even when
further pages remain — leaving the empty page consumed and counters reset. -/
theorem hasNext_empty_page_returns_false (s : CRState) (p : Page) (rest : List Page)
    (hcur : s.numBuffered = 0 ∨ s.numDecoded = s.numBuffered)
    (hpage : ReadNewPage s.pages = some (p, rest)) (hempty : p.numValues = 0) :
    HasNext s = (false, loadPage s p rest)
    ∧ ∀ (q : Page) (qs : List Page), q.kind ≠ PageKind.data →
        ReadNewPage (q :: qs) = ReadNewPage qs := by
  constructor
  · rw [HasNext, if_pos hcur, hpage]
    simp [loadPage, hempty]
  · intro q qs hq
    rw [ReadNewPage, if_neg hq]

/-- C4 amended witness: the concrete two-page source of the counterexample. -/
theorem hasNext_empty_page_returns_false_witness :
    HasNext
        { pages := [⟨.data, 0, [], [], []⟩, ⟨.data, 3, [1, 1, 1], [], [7, 8, 9]⟩],
          numBuffered := 0, numDecoded := 0, curDef := [], curRep := [], curVals := [],
          maxDef := 1, maxRep := 0 }
      = (false,
          loadPage
            { pages := [⟨.data, 0, [], [], []⟩, ⟨.data, 3, [1, 1, 1], [], [7, 8, 9]⟩],
              numBuffered := 0, numDecoded := 0, curDef := [], curRep := [], curVals := [],
              maxDef := 1, maxRep := 0 }
            ⟨.data, 0, [], [], []⟩ [⟨.data, 3, [1, 1, 1], [], [7, 8, 9]⟩]) :=
  (hasNext_empty_page_returns_false
    { pages := [⟨.data, 0, [], [], []⟩, ⟨.data, 3, [1, 1, 1], [], [7, 8, 9]⟩],
      numBuffered := 0, numDecoded := 0, curDef := [], curRep := [], curVals := [],
      maxDef := 1, maxRep := 0 }
    ⟨.data, 0, [], [], []⟩ [⟨.data, 3, [1, 1, 1], [], [7, 8, 9]⟩]
    (Or.inl rfl) (by decide) rfl).1

/-- C9. With a null `def_levels` pointer and `max_definition_level > 0`,
`ReadBatch` skips definition-level decoding entirely (the level stream and
the returned level buffer stay untouched), requests the full clamped batch
size from the value decoder, and returns the count of values the decoder
produced — not a level count. -/
theorem readBatch_null_def_levels (s : CRState) (n : Nat)
    (_hmax : 0 < s.maxDef) (hbuf : 0 < s.numBuffered)
    (hdec : s.numDecoded < s.numBuffered) :
    ReadBatch s n false false
      = .ok ((s.curVals.take (min n (s.numBuffered - s.numDecoded))).length, [],
             s.curVals.take (min n (s.numBuffered - s.numDecoded)),
             (s.curVals.take (min n (s.numBuffered - s.numDecoded))).length,
             { s with
               curVals := s.curVals.drop (min n (s.numBuffered - s.numDecoded))
               numDecoded :=
                 s.numDecoded + (s.curVals.take (min n (s.numBuffered - s.numDecoded))).length }) := by
  have hnot : ¬(s.numBuffered = 0 ∨ s.numDecoded = s.numBuffered) := by omega
  rw [ReadBatch, HasNext, if_neg hnot]
  simp [ReadValues]

/-- C9 witness: a loaded page with levels `[1,0,1]` and two dense values;
the null-def-levels read returns both values and leaves the level stream
alone. -/
theorem readBatch_null_def_levels_witness :
    ReadBatch ⟨[], 3, 0, [1, 0, 1], [], [5, 7], 1, 0⟩ 10 false false
      = .ok (2, [], [5, 7], 2, ⟨[], 3, 2, [1, 0, 1], [], [], 1, 0⟩) := by
  have h := readBatch_null_def_levels ⟨[], 3, 0, [1, 0, 1], [], [5, 7], 1, 0⟩ 10
    (by decide) (by decide) (by decide)
  simpa using h

/-- C10. With a non-null, non-empty column filter, any requested name
absent from the file's columns is silently dropped by
`ColumnFilter::IndicesFrom`; `read_parquet` still returns `GDF_SUCCESS` and
`out_gdf_columns_length` equals the number of matched names only. -/
theorem read_parquet_skips_unmatched (f : ParquetFile) (fs : List String)
    (hne : fs ≠ []) (hrg : 0 < f.numRowGroups) (hnr : 0 < f.numRows) :
    read_parquet (some f) none (some fs)
        = (.GDF_SUCCESS, some (fs.countP fun n => decide (n ∈ f.columnNames)))
    ∧ IndicesFrom fs f.columnNames
        = IndicesFromGo (fs.filter fun n => decide (n ∈ f.columnNames)) f.columnNames := by
  constructor
  · rw [read_parquet]
    simp only [Option.isSome_none, Bool.false_eq_true, if_false, if_neg (by omega : ¬f.numRowGroups = 0),
      if_neg (by omega : ¬f.numRows = 0)]
    rw [Option.getD_some, IndicesFrom, if_neg hne, IndicesFromGo_length]
  · rw [IndicesFrom, if_neg hne, IndicesFromGo_filter_matched]

/-- C10 witness: requesting `["a", "zzz"]` from a file with columns
`["a", "b"]` succeeds with one output column. -/
theorem read_parquet_skips_unmatched_witness :
    read_parquet (some ⟨["a", "b"], 1, 1⟩) none (some ["a", "zzz"])
      = (.GDF_SUCCESS, some 1) := by
  have h := read_parquet_skips_unmatched ⟨["a", "b"], 1, 1⟩ ["a", "zzz"]
    (by decide) (by decide) (by decide)
  rw [h.1]
  rfl

end GdfParquet
